import Mathlib

/-!
A verification development for `schwab_portfolios.py`, a hierarchical
investment-allocation tree: `Equity` leaves (the spec's "Instrument"),
`Portfolio` interior nodes (the spec's "Allocation") mapping children to
exact decimal weights, plus construction-time invariants, flattening,
leaf collection, pretty-printing, name lookup, and a structured (JSON)
serialization.

Modelling conventions, matching the Python source:

* Python `decimal.Decimal` weights are modelled by `ℚ`.  `Decimal`
  comparison (`==`), addition and multiplication are exact on the values
  occurring here, and `str`/`Decimal` round-trips are value-faithful, so
  the observable semantics of a weight is its exact rational value.
  (The default decimal context's 28-significant-digit rounding and the
  representation-level distinction between `0.5` and `0.50` are outside
  the model.)
* A Python `dict[Node, str]` of children is modelled as a list of pairs:
  neither `Equity` nor `Portfolio` defines `__eq__`, so Python dict keys
  compare by object identity and distinct constructor calls never
  collide; the dict is exactly an ordered association list.
* Exceptions are modelled by `Except PyErr`; each `PyErr` constructor
  corresponds to one raise site (or raising stdlib call) in the source.
-/

/-- Errors raised by the Python source, one constructor per raise site:
`keyError k` is the `KeyError` from `d[k]` on a missing key, `invalidNodeType`
is `ValueError("Invalid node type.")` in `Node.from_dict`, `weightSum` and
`dupName` are the two `assert`s in `Portfolio.__init__` (the spec's
`WeightSumError` and `DuplicateChildName`), `invalidWeight` is
`decimal.InvalidOperation` from `Decimal(v)` on a non-numeral (the spec's
`InvalidWeight`), `notSliceable` is `Exception("Can't slice equity.")`, and
`typeErr` stands for a `TypeError` from indexing or unpacking a value of the
wrong shape. -/
inductive PyErr where
  | keyError (k : String)
  | invalidNodeType
  | weightSum
  | dupName
  | invalidWeight
  | notSliceable
  | typeErr
deriving DecidableEq, Repr

/-- The tree of `schwab_portfolios.py`: `equity t` is `Equity(ticker=t)`
(the spec's Instrument), `portfolio n cs` is a `Portfolio` with name `n`
whose ordered child map is the association list `cs` (weights already
parsed from their textual form into exact values, see the `Decimal`
convention above). -/
inductive Node where
  | equity (ticker : String)
  | portfolio (name : String) (children : List (Node × ℚ))
deriving Repr

/-- `name`: an `Equity`'s name is its ticker (`Equity.__init__` sets
`self.name = ticker`); a `Portfolio`'s name is the `name` argument. -/
def Node.name : Node → String
  | .equity t => t
  | .portfolio n _ => n

/-- `sum(val for val in self.children.values())` in `Portfolio.__init__`. -/
def sumw (cs : List (Node × ℚ)) : ℚ :=
  (cs.map Prod.snd).sum

/-- `[child.name for child in self.children.keys()]` in `Portfolio.__init__`. -/
def childNames (cs : List (Node × ℚ)) : List String :=
  cs.map (fun c => c.1.name)

/-- `Portfolio.__init__`, with weights already parsed: store the children,
then `assert sum(...) == 1` (raising the spec's `WeightSumError`), then
`assert len(child_names) == len(set(child_names))` (raising the spec's
`DuplicateChildName`).  A successful call returns the constructed node;
a failed `assert` raises, so no partially built portfolio is returned. -/
def mkPortfolio (name : String) (children : List (Node × ℚ)) : Except PyErr Node :=
  if sumw children = 1 then
    if (childNames children).Nodup then
      .ok (.portfolio name children)
    else
      .error .dupName
  else
    .error .weightSum

mutual

/-- Recursive validity of a tree: every `portfolio` node in it satisfies
exactly the checks of `Portfolio.__init__` (weights sum to 1, sibling
names pairwise distinct).  `validB T = true` says `T` is a tree that
Python could actually have constructed. -/
def validB : Node → Bool
  | .equity _ => true
  | .portfolio _ cs => (sumw cs == 1) && decide (childNames cs).Nodup && validChildren cs

/-- `validB` over a child list. -/
def validChildren : List (Node × ℚ) → Bool
  | [] => true
  | (c, _) :: rest => validB c && validChildren rest

end

/-- The derived index `_children_by_name` of `Portfolio.__init__`, as a
lookup function: `{node.name: (node, pct) for node, pct in children}` is
built front to back with later bindings overwriting earlier ones, and
`.get(key, None)` reads the final binding.  The left fold reproduces
exactly that last-binding-wins semantics. -/
def childrenByName (cs : List (Node × ℚ)) (key : String) : Option (Node × ℚ) :=
  cs.foldl (fun acc cw => if cw.1.name = key then some cw else acc) none

/-- `__getitem__`: on `Equity` it raises (`Can't slice equity.`); on
`Portfolio` it returns `self._children_by_name.get(key, None)`. -/
def getItem : Node → String → Except PyErr (Option (Node × ℚ))
  | .equity _, _ => .error .notSliceable
  | .portfolio _ cs, key => .ok (childrenByName cs key)

/-- `__truediv__`: on `Equity` it raises; on `Portfolio` it computes
`child and child[0]` on the `.get` result — `None` stays `None`, a pair
(always truthy) yields its node component. -/
def truediv : Node → String → Except PyErr (Option Node)
  | .equity _, _ => .error .notSliceable
  | .portfolio _ cs, key => .ok ((childrenByName cs key).map Prod.fst)

/-- The structured interchange value (a JSON-compatible document).
`vstr` is a non-numeral string, `vnum q` models a numeral string of exact
decimal value `q` (the wire form `str(pct)` of a weight; `str`/`Decimal`
round-trips are value-faithful, so a numeral string is identified with
its value), `vpairs` is a list of two-element lists `[child, weight]`,
and `vdict` is a JSON object.  The JSON text codec (`json.dumps` /
`json.loads`) is a value-faithful bijection on such documents, so the
model identifies a document with its text form. -/
inductive DVal where
  | vstr (s : String)
  | vnum (q : ℚ)
  | vpairs (items : List (DVal × DVal))
  | vdict (fields : List (String × DVal))

/-- `d[k]` on a Python dict: the value at `k`, or `KeyError` if absent
(dict keys are unique, so the first match is the binding). -/
def dGet (fs : List (String × DVal)) (k : String) : Except PyErr DVal :=
  match fs.find? (fun f => f.1 == k) with
  | some f => .ok f.2
  | none => .error (.keyError k)

/-- `Decimal(v)` on the wire form of a weight: a numeral string parses to
its exact value; any other value raises `decimal.InvalidOperation` (or a
`TypeError`), collapsed here to `invalidWeight`. -/
def decimalOf : DVal → Except PyErr ℚ
  | .vnum q => .ok q
  | _ => .error .invalidWeight

/-- The weight-parsing loop of `Portfolio.__init__`:
`{k: Decimal(v) for k, v in children.items()}`, front to back, first
failure raising out of the construction. -/
def parseWeights : List (Node × DVal) → Except PyErr (List (Node × ℚ))
  | [] => .ok []
  | (c, v) :: rest =>
    match decimalOf v with
    | .error e => .error e
    | .ok q =>
      match parseWeights rest with
      | .error e => .error e
      | .ok tail => .ok ((c, q) :: tail)

/-- `Portfolio.__init__` as called from `Portfolio.from_dict`, weights
still in wire form: parse every weight with `Decimal`, then run the
construction checks of `mkPortfolio`. -/
def mkPortfolioRaw (name : String) (cs : List (Node × DVal)) : Except PyErr Node :=
  match parseWeights cs with
  | .error e => .error e
  | .ok cs' => mkPortfolio name cs'

/-- `Equity.from_dict` as called from `Node.from_dict` (so the `assert`
on `type` has already been established by dispatch): read `ticker` and
construct.  `Equity(ticker=...)` accepts any value; the model's trees
carry string tickers, so a non-string ticker is out of the model and
mapped to `typeErr`. -/
def equityFromDict (fs : List (String × DVal)) : Except PyErr Node :=
  match dGet fs "ticker" with
  | .error e => .error e
  | .ok (DVal.vstr t) => .ok (.equity t)
  | .ok _ => .error .typeErr

mutual

/-- `Node.from_dict`: read the discriminant `node_dict['type']`
(`KeyError` if absent), dispatch on `'EQUITY'` / `'PORTFOLIO'`, raise
`ValueError("Invalid node type.")` for any other value (including a
non-string one, which compares unequal to both literals).  Indexing a
non-dict document raises a `TypeError`. -/
def nodeFromDict : DVal → Except PyErr Node
  | .vdict fs =>
    (match dGet fs "type" with
     | .error e => .error e
     | .ok (DVal.vstr s) =>
       if s = "EQUITY" then equityFromDict fs
       else if s = "PORTFOLIO" then portfolioFromDict fs
       else .error .invalidNodeType
     | .ok _ => .error .invalidNodeType)
  | _ => .error .typeErr
termination_by d => sizeOf d

/-- `Portfolio.from_dict` (dispatch has established the `type` assert):
evaluate `node_dict['name']` first, then `node_dict['children']` (Python
evaluates keyword arguments left to right, so a missing `name` raises
before a missing `children`), decode each `[child, pct]` pair front to
back, then construct via `Portfolio.__init__`.  A non-string `name` or a
non-pair-list `children` is out of the model and mapped to `typeErr`. -/
def portfolioFromDict (fs : List (String × DVal)) : Except PyErr Node :=
  match dGet fs "name" with
  | .error e => .error e
  | .ok (DVal.vstr n) =>
    (match h : dGet fs "children" with
     | .error e => .error e
     | .ok (DVal.vpairs items) =>
       (match decodePairs items with
        | .error e => .error e
        | .ok cs => mkPortfolioRaw n cs)
     | .ok _ => .error .typeErr)
  | .ok _ => .error .typeErr
termination_by sizeOf fs
decreasing_by
  unfold dGet at h
  split at h
  next f hf =>
    injection h with h2
    have h3 := List.sizeOf_lt_of_mem (List.mem_of_find?_eq_some hf)
    obtain ⟨a, b⟩ := f
    simp only at h2
    subst h2
    simp at h3 ⊢
    omega
  next hf => cases h

/-- The child-decoding comprehension of `Portfolio.from_dict`:
`{Node.from_dict(child): pct for child, pct in node_dict['children']}`,
decoded front to back, first failure raising; weights stay in wire form
(they are parsed later, inside `Portfolio.__init__`). -/
def decodePairs : List (DVal × DVal) → Except PyErr (List (Node × DVal))
  | [] => .ok []
  | (c, w) :: rest =>
    match nodeFromDict c with
    | .error e => .error e
    | .ok node =>
      match decodePairs rest with
      | .error e => .error e
      | .ok tail => .ok ((node, w) :: tail)
termination_by l => sizeOf l

end

mutual

/-- `to_dict`: `Equity` emits `{'type': 'EQUITY', 'ticker': ...}`;
`Portfolio` emits `{'type': 'PORTFOLIO', 'name': ..., 'children':
[[child.to_dict(), str(pct)], ...]}` in child order. -/
def toDict : Node → DVal
  | .equity t => .vdict [("type", .vstr "EQUITY"), ("ticker", .vstr t)]
  | .portfolio n cs =>
    .vdict [("type", .vstr "PORTFOLIO"), ("name", .vstr n),
            ("children", .vpairs (toDictChildren cs))]

/-- The `children` array of `Portfolio.to_dict`: each child serialized,
each weight written as the numeral string `str(pct)`. -/
def toDictChildren : List (Node × ℚ) → List (DVal × DVal)
  | [] => []
  | (c, q) :: rest => (toDict c, .vnum q) :: toDictChildren rest

end

/-- `to_json`: `json.dumps(self.to_dict())`; the text codec is a
value-faithful bijection on documents, so the model identifies the JSON
text with the structured document itself. -/
def to_json : Node → DVal := toDict

/-- `from_json`: `cls.from_dict(json.loads(json_node))`, under the same
identification of a document with its text form. -/
def from_json : DVal → Except PyErr Node := nodeFromDict

/-- Modelled from the spec: the spec's `InvalidNodeType` class of decode
errors, "decode encountered an unrecognized or missing discriminant".
In the code an unrecognized discriminant raises
`ValueError("Invalid node type.")` and a missing one raises
`KeyError('type')`; both fall in this class. -/
def isInvalidNodeTypeErr : PyErr → Bool
  | .invalidNodeType => true
  | .keyError k => k == "type"
  | _ => false

/-- Modelled from the spec: the spec's `MalformedStructure` class of
decode errors, "a structurally invalid document (missing/mistyped
fields)" — a required non-discriminant field absent (`KeyError` on a key
other than `'type'`) or a field of the wrong shape (`TypeError`). -/
def isMalformedStructureErr : PyErr → Bool
  | .keyError k => k != "type"
  | .typeErr => true
  | _ => false

/-- Python-object-level trees, for the facts that depend on object
identity: neither `Equity` nor `Portfolio` defines `__eq__`, so `==`,
default hashing and container membership fall back to the `object`
defaults, which distinguish two separately constructed objects even when
they are structurally identical.  `ONode` is `Node` with an identity tag;
two model values with different tags stand for two distinct Python
objects. -/
inductive ONode where
  | equity (id : ℕ) (ticker : String)
  | portfolio (id : ℕ) (name : String) (children : List (ONode × ℚ))

/-- The identity tag of an object. -/
def ONode.oid : ONode → ℕ
  | .equity i _ => i
  | .portfolio i _ _ => i

/-- The `ticker` attribute: present on `Equity` objects only. -/
def ONode.oticker : ONode → Option String
  | .equity _ t => some t
  | .portfolio _ _ _ => none

/-- The `name` attribute of an object (`Equity.__init__` sets it to the
ticker). -/
def ONode.oname : ONode → String
  | .equity _ t => t
  | .portfolio _ n _ => n

/-- Python `==` between two tree objects: with no `__eq__` defined on
either class, `a == b` falls back to `a is b`, object identity. -/
def pyEq (a b : ONode) : Bool := a.oid == b.oid

/-- Python `hash` of an `Equity` object: the class defines no `__hash__`,
so the default identity-derived object hash applies, modelled by the
identity tag itself — what matters below is that it is independent of
the ticker. -/
def pyHashEquity (a : ONode) : ℕ := a.oid

/-- CPython `set.add` on the model: membership is decided by `==`
(identity here); an already-present object is not re-added.  The list
order models insertion order; the facts proved below depend only on
membership and cardinality, which CPython's unordered sets also
determine. -/
def setAdd (s : List ONode) (x : ONode) : List ONode :=
  if s.any (fun y => pyEq y x) then s else s ++ [x]

/-- `set.union`: the left set extended by every member of the right. -/
def setUnion (s : List ONode) (t : List ONode) : List ONode :=
  t.foldl setAdd s

mutual

/-- `Portfolio.all_equities`: walk the immediate children in order; an
`Equity` child is `add`ed to the result set, a `Portfolio` child
contributes its recursive result via `union`.  (The method exists only on
`Portfolio`; the equity equation is never reached from a portfolio walk's
guarded dispatch.) -/
def all_equities : ONode → List ONode
  | .equity _ _ => []
  | .portfolio _ _ cs => allEquitiesChildren cs []

/-- The `for child in self.children.keys()` loop of `all_equities`, with
the accumulated result set. -/
def allEquitiesChildren : List (ONode × ℚ) → List ONode → List ONode
  | [], acc => acc
  | (c, _) :: rest, acc =>
    match c with
    | .equity _ _ => allEquitiesChildren rest (setAdd acc c)
    | .portfolio _ _ _ => allEquitiesChildren rest (setUnion acc (all_equities c))

end

/-- `sumw` on object-level child lists. -/
def osumw (cs : List (ONode × ℚ)) : ℚ :=
  (cs.map Prod.snd).sum

/-- `childNames` on object-level child lists. -/
def ochildNames (cs : List (ONode × ℚ)) : List String :=
  cs.map (fun c => c.1.oname)

mutual

/-- `validB` on object-level trees: every portfolio in the tree passes
the two constructor checks. -/
def ovalidB : ONode → Bool
  | .equity _ _ => true
  | .portfolio _ _ cs =>
    (osumw cs == 1) && decide (ochildNames cs).Nodup && ovalidChildren cs

/-- `ovalidB` over a child list. -/
def ovalidChildren : List (ONode × ℚ) → Bool
  | [] => true
  | (c, _) :: rest => ovalidB c && ovalidChildren rest

end

/-- `'  ' * indent`: two spaces per indentation level. -/
def sp2 (indent : ℕ) : String := String.mk (List.replicate (2 * indent) ' ')

/-- `str(pct)` on a `Decimal` weight in canonical minimal form: render
the exact decimal value with the fewest fraction digits.  (`Decimal`
remembers the digits of its construction string; the weights rendered in
the theorems below are written canonically, where `str` prints exactly
this.) -/
def decStr (q : ℚ) : String :=
  let k := ((List.range 40).find? (fun i => 10 ^ i % q.den == 0)).getD 0
  let m := q.num * ((10 ^ k / q.den : ℕ) : ℤ)
  if k = 0 then toString m
  else
    let s := toString m.natAbs
    let s := if s.length ≤ k then String.mk (List.replicate (k + 1 - s.length) '0') ++ s else s
    (if m < 0 then "-" else "") ++ s.dropRight k ++ "." ++ s.takeRight k

mutual

/-- `pretty`.  `Equity.pretty` is `'  ' * indent + repr(self)` with
`repr(self) = Equity(ticker='<ticker>')`.  `Portfolio.pretty` renders a
`Portfolio(` header line, a `name=` line, a `children={` line, one line
per child (`child.pretty(indent + 2) + ": " + str(pct)`, joined by
newlines) and a closing `})` line.  The `name=` fragment in the source is
the plain (non-f) string literal `"name='{self.name}',\n"` concatenated
after an f-string, so the output contains the text `{self.name}`
verbatim — the portfolio's actual name is never interpolated (note the
name argument is unused below, exactly as in the code). -/
def pretty : Node → ℕ → String
  | .equity t, indent => sp2 indent ++ "Equity(ticker=\x27" ++ t ++ "\x27)"
  | .portfolio _ cs, indent =>
    sp2 indent ++ "Portfolio(\n" ++
    sp2 (indent + 1) ++ "name=\x27\x7bself.name\x7d\x27,\n" ++
    sp2 (indent + 1) ++ "children=\x7b\n" ++
    String.intercalate "\n" (prettyChildren cs (indent + 2)) ++ "\n" ++
    sp2 (indent + 1) ++ "\x7d)"

/-- The child-line list of `Portfolio.pretty`:
`[f"{node.pretty(indent + 2)}: {pct}" for node, pct in children]` (the
`indent + 2` is already applied by the caller here). -/
def prettyChildren : List (Node × ℚ) → ℕ → List String
  | [], _ => []
  | (c, q) :: rest, indent =>
    (pretty c indent ++ ": " ++ decStr q) :: prettyChildren rest indent

end

/-- `noSlash s`: the string contains no `/` path-separator character. -/
def noSlash (s : String) : Bool := s.data.all (fun c => c != '/')

mutual

/-- Every name and ticker in the tree is free of `/` (the spec's
documented limitation: `flatten` performs no escaping, so a `/` inside a
name makes paths ambiguous). -/
def slashFree : Node → Bool
  | .equity t => noSlash t
  | .portfolio n cs => noSlash n && slashFreeChildren cs

/-- `slashFree` over a child list. -/
def slashFreeChildren : List (Node × ℚ) → Bool
  | [] => true
  | (c, _) :: rest => slashFree c && slashFreeChildren rest

end

/-- `result[key] = value` on a Python dict: an existing binding is
updated in place (its position kept), otherwise the binding is appended
in insertion order. -/
def dictInsert (l : List (String × ℚ)) (k : String) (v : ℚ) : List (String × ℚ) :=
  if l.any (fun kv => kv.1 == k) then
    l.map (fun kv => if kv.1 == k then (k, v) else kv)
  else
    l ++ [(k, v)]

/-- A sequence of dict insertions, front to back. -/
def dictInsertList (acc : List (String × ℚ)) (l : List (String × ℚ)) :
    List (String × ℚ) :=
  l.foldl (fun a kv => dictInsert a kv.1 kv.2) acc

/-- The inner loop of `Portfolio.flatten` over one flattened
sub-portfolio: `for path, child_pct in flattened_child.items():
result[f"{self.name}/{path}"] = pct * child_pct`. -/
def insertScaled (n : String) (q : ℚ) :
    List (String × ℚ) → List (String × ℚ) → List (String × ℚ)
  | [], acc => acc
  | (p, w) :: rest, acc => insertScaled n q rest (dictInsert acc (n ++ "/" ++ p) (q * w))

mutual

/-- `Portfolio.flatten`: fold the children into the `result` dict in
order; an `Equity` child contributes `result[f"{name}/{ticker}"] = pct`,
a `Portfolio` child is flattened recursively and merged scaled by `pct`.
(The method exists only on `Portfolio`; the equity equation is never
reached from the guarded recursion.) -/
def flatten : Node → List (String × ℚ)
  | .equity _ => []
  | .portfolio n cs => flattenChildren n cs []

/-- The `for node, pct in self.children.items()` loop of `flatten`, with
the accumulated result dict. -/
def flattenChildren (n : String) : List (Node × ℚ) → List (String × ℚ) →
    List (String × ℚ)
  | [], acc => acc
  | (c, q) :: rest, acc =>
    match c with
    | .equity t => flattenChildren n rest (dictInsert acc (n ++ "/" ++ t) q)
    | .portfolio _ _ => flattenChildren n rest (insertScaled n q (flatten c) acc)

end

mutual

/-- Modelled from the spec: claim C4's description of `flatten` — for
each Instrument child one entry keyed `name/ticker` with the child's
weight, for each Allocation child the recursive flatten prefixed with
`name/` and scaled by the child's weight, the children's entries listed
in child order with no key-collision handling. -/
def flattenSpec : Node → List (String × ℚ)
  | .equity _ => []
  | .portfolio n cs => flattenSpecChildren n cs

/-- `flattenSpec` over a child list. -/
def flattenSpecChildren (n : String) : List (Node × ℚ) → List (String × ℚ)
  | [] => []
  | (c, q) :: rest =>
    (match c with
     | .equity t => [(n ++ "/" ++ t, q)]
     | .portfolio _ _ =>
       (flattenSpec c).map (fun pw => (n ++ "/" ++ pw.1, q * pw.2))) ++
    flattenSpecChildren n rest

end

/-- One child's contribution to `flattenSpec`. -/
def specEntries (n : String) (c : Node) (q : ℚ) : List (String × ℚ) :=
  match c with
  | .equity t => [(n ++ "/" ++ t, q)]
  | .portfolio _ _ => (flattenSpec c).map (fun pw => (n ++ "/" ++ pw.1, q * pw.2))

/-!
## Theorems
-/

theorem validB_portfolio (n : String) (cs : List (Node × ℚ))
    (h : validB (.portfolio n cs) = true) :
    sumw cs = 1 ∧ (childNames cs).Nodup ∧ validChildren cs = true := by
  simp only [validB, Bool.and_eq_true, beq_iff_eq, decide_eq_true_eq] at h
  exact ⟨h.1.1, h.1.2, h.2⟩

theorem validChildren_mem (cs : List (Node × ℚ)) (h : validChildren cs = true)
    (c : Node) (w : ℚ) (hm : (c, w) ∈ cs) : validB c = true := by
  induction cs with
  | nil => cases hm
  | cons hd tl ih =>
    obtain ⟨c', w'⟩ := hd
    simp only [validChildren, Bool.and_eq_true] at h
    rcases List.mem_cons.mp hm with h1 | h1
    · rw [Prod.mk.injEq] at h1
      rw [h1.1]
      exact h.1
    · exact ih h.2 h1

theorem mkPortfolio_valid (n : String) (cs : List (Node × ℚ))
    (hc : validChildren cs = true) (p : Node) (h : mkPortfolio n cs = .ok p) :
    validB p = true := by
  unfold mkPortfolio at h
  split at h
  · split at h
    · cases h
      simp only [validB, Bool.and_eq_true, beq_iff_eq, decide_eq_true_eq]
      exact ⟨⟨by assumption, by assumption⟩, hc⟩
    · cases h
  · cases h

theorem mkPortfolio_ok (n : String) (cs : List (Node × ℚ))
    (h1 : sumw cs = 1) (h2 : (childNames cs).Nodup) :
    mkPortfolio n cs = .ok (.portfolio n cs) := by
  unfold mkPortfolio
  rw [if_pos h1, if_pos h2]

/-- Claim C2: constructing a `Portfolio` fails with the weight-sum error
if and only if the exact sum of the child weights differs from 1; in
particular the empty child list (sum 0) fails; and whenever construction
succeeds, the sum was exactly 1 and the names were distinct, so no
invalid portfolio value is ever produced. -/
theorem claim_C2_weight_sum (n : String) (cs : List (Node × ℚ)) :
    (mkPortfolio n cs = .error .weightSum ↔ sumw cs ≠ 1) ∧
    mkPortfolio n [] = .error .weightSum ∧
    (∀ p : Node, mkPortfolio n cs = .ok p →
      sumw cs = 1 ∧ (childNames cs).Nodup ∧ p = .portfolio n cs) := by
  refine ⟨?_, ?_, ?_⟩
  · unfold mkPortfolio
    split
    · split <;> simp_all
    · simp_all
  · simp [mkPortfolio, sumw]
  · intro p h
    unfold mkPortfolio at h
    split at h
    · split at h
      · cases h; exact ⟨by assumption, by assumption, rfl⟩
      · cases h
    · cases h

/-- Witness for C2 at concrete inputs: two children of weight 0.6 and 0.6
(sum 1.2) are rejected with the weight-sum error. -/
theorem claim_C2_weight_sum_witness :
    mkPortfolio "P" [(.equity "A", 3/5), (.equity "B", 3/5)] = .error .weightSum :=
  ((claim_C2_weight_sum "P" [(.equity "A", 3/5), (.equity "B", 3/5)]).1).mpr
    (by norm_num [sumw])

/-- Claim C3: a `Portfolio` whose immediate children contain two entries
with the same name is rejected with the duplicate-name error, for every
choice of weight values that sum to 1 (when the sum is off, the
weight-sum check fires first, per `mkPortfolio`). -/
theorem claim_C3_duplicate_names (n : String) (cs : List (Node × ℚ))
    (hsum : sumw cs = 1) (hdup : ¬ (childNames cs).Nodup) :
    mkPortfolio n cs = .error .dupName := by
  unfold mkPortfolio
  rw [if_pos hsum, if_neg hdup]

/-- Witness for C3: two distinct `Equity("A")` objects (equal tickers,
hence equal names) with weights summing to 1 are rejected. -/
theorem claim_C3_duplicate_names_witness :
    mkPortfolio "P" [(.equity "A", 1/2), (.equity "A", 1/2)] = .error .dupName :=
  claim_C3_duplicate_names "P" [(.equity "A", 1/2), (.equity "A", 1/2)]
    (by norm_num [sumw]) (by simp [childNames, Node.name])

/-- Claim C10 (corrected): `Portfolio.__init__` checks only the sum of the
weights and the distinctness of the names; it never inspects an individual
weight, so a successful construction guarantees sum 1 and distinct names
but puts no interval constraint on any single weight — the two-child map
with weights 2 and −1 constructs successfully. -/
theorem claim_C10_amended (n : String) (cs : List (Node × ℚ)) (p : Node)
    (h : mkPortfolio n cs = .ok p) :
    sumw cs = 1 ∧ (childNames cs).Nodup := by
  unfold mkPortfolio at h
  split at h
  · split at h
    · exact ⟨by assumption, by assumption⟩
    · cases h
  · cases h

/-- Witness for the amended C10 at a concrete successful construction. -/
theorem claim_C10_amended_witness :
    sumw [((Node.equity "A"), (1 : ℚ))] = 1 ∧
      (childNames [((Node.equity "A"), (1 : ℚ))]).Nodup :=
  claim_C10_amended "Q" [(.equity "A", 1)] (.portfolio "Q" [(.equity "A", 1)])
    (by norm_num [mkPortfolio, sumw, childNames])

/-- Counterexample to C10 as stated: the claim says a child weight of 2
(or −1) must make construction fail, but the code accepts weights 2 and
−1 because they sum to 1 and the names differ. -/
theorem claim_C10_counterexample :
    mkPortfolio "P" [(.equity "A", 2), (.equity "B", -1)] =
      .ok (.portfolio "P" [(.equity "A", 2), (.equity "B", -1)]) := by
  norm_num [mkPortfolio, sumw, childNames, Node.name]
  exact fun h => absurd h (by decide)

theorem childrenByName_no_match (key : String) (cs : List (Node × ℚ))
    (h : ∀ cw ∈ cs, cw.1.name ≠ key) (acc : Option (Node × ℚ)) :
    cs.foldl (fun acc cw => if cw.1.name = key then some cw else acc) acc = acc := by
  induction cs generalizing acc with
  | nil => rfl
  | cons hd tl ih =>
    rw [List.foldl_cons, if_neg (h hd (List.mem_cons_self hd tl))]
    exact ih (fun cw hm => h cw (List.mem_cons_of_mem hd hm)) acc

theorem childrenByName_eq_some (cs : List (Node × ℚ)) (key : String) :
    ∀ cw : Node × ℚ, (childNames cs).Nodup →
      (childrenByName cs key = some cw ↔ cw ∈ cs ∧ cw.1.name = key) := by
  induction cs with
  | nil => intro cw _; simp [childrenByName]
  | cons hd tl ih =>
    intro cw h
    rw [childNames, List.map_cons, List.nodup_cons] at h
    by_cases hk : hd.1.name = key
    · have hNone : ∀ x ∈ tl, x.1.name ≠ key := by
        intro x hx hne
        exact h.1 (hk ▸ hne ▸ List.mem_map_of_mem (fun c => c.1.name) hx)
      rw [childrenByName, List.foldl_cons, if_pos hk,
        childrenByName_no_match key tl hNone (some hd)]
      constructor
      · intro h1
        injection h1 with h2
        subst h2
        exact ⟨List.mem_cons_self _ _, hk⟩
      · rintro ⟨hm, hname⟩
        rcases List.mem_cons.mp hm with h1 | h1
        · rw [h1]
        · exact absurd hname (hNone cw h1)
    · have ih' := ih cw h.2
      rw [childrenByName] at ih'
      rw [childrenByName, List.foldl_cons, if_neg hk, ih']
      constructor
      · rintro ⟨hm, hname⟩
        exact ⟨List.mem_cons_of_mem hd hm, hname⟩
      · rintro ⟨hm, hname⟩
        rcases List.mem_cons.mp hm with h1 | h1
        · exact absurd (h1 ▸ hname) hk
        · exact ⟨h1, hname⟩

theorem childrenByName_foldl_none (key : String) (cs : List (Node × ℚ)) :
    ∀ acc : Option (Node × ℚ),
      cs.foldl (fun acc cw => if cw.1.name = key then some cw else acc) acc = none ↔
        (acc = none ∧ ∀ cw ∈ cs, cw.1.name ≠ key) := by
  induction cs with
  | nil => intro acc; simp
  | cons hd tl ih =>
    intro acc
    rw [List.foldl_cons]
    by_cases hk : hd.1.name = key
    · rw [if_pos hk, ih]
      constructor
      · rintro ⟨h1, _⟩
        cases h1
      · rintro ⟨_, hall⟩
        exact absurd hk (hall hd (List.mem_cons_self hd tl))
    · rw [if_neg hk, ih]
      constructor
      · rintro ⟨h1, hall⟩
        refine ⟨h1, fun cw hm => ?_⟩
        rcases List.mem_cons.mp hm with h2 | h2
        · exact h2 ▸ hk
        · exact hall cw h2
      · rintro ⟨h1, hall⟩
        exact ⟨h1, fun cw hm => hall cw (List.mem_cons_of_mem hd hm)⟩

theorem childrenByName_eq_none (cs : List (Node × ℚ)) (key : String) :
    childrenByName cs key = none ↔ ∀ cw ∈ cs, cw.1.name ≠ key := by
  rw [childrenByName, childrenByName_foldl_none]
  simp

/-- Claim C5: on a validly constructed `Portfolio`, `__getitem__` returns
the pair of the unique immediate child whose name equals the key, or
`None` when no immediate child has that name; on an `Equity` both
`__getitem__` and `__truediv__` raise the not-sliceable error; and
`__truediv__` on a `Portfolio` obeys the same contract with the weight
dropped. -/
theorem claim_C5_lookup (n : String) (cs : List (Node × ℚ))
    (h : (childNames cs).Nodup) (key t : String) :
    (∀ (c : Node) (w : ℚ),
      getItem (.portfolio n cs) key = .ok (some (c, w)) ↔ (c, w) ∈ cs ∧ c.name = key) ∧
    (getItem (.portfolio n cs) key = .ok none ↔ ∀ cw ∈ cs, cw.1.name ≠ key) ∧
    (∀ c : Node,
      truediv (.portfolio n cs) key = .ok (some c) ↔ ∃ w, (c, w) ∈ cs ∧ c.name = key) ∧
    (truediv (.portfolio n cs) key = .ok none ↔ ∀ cw ∈ cs, cw.1.name ≠ key) ∧
    getItem (.equity t) key = .error .notSliceable ∧
    truediv (.equity t) key = .error .notSliceable := by
  refine ⟨?_, ?_, ?_, ?_, rfl, rfl⟩
  · intro c w
    rw [getItem, Except.ok.injEq, Option.eq_some_iff_get_eq]
    constructor
    · rintro ⟨hsome, hget⟩
      have : childrenByName cs key = some (c, w) := by
        rw [← hget]
        exact (Option.some_get hsome).symm
      exact (childrenByName_eq_some cs key (c, w) h).mp this
    · intro hcw
      have := (childrenByName_eq_some cs key (c, w) h).mpr hcw
      rw [this]
      exact ⟨rfl, rfl⟩
  · rw [getItem, Except.ok.injEq]
    exact childrenByName_eq_none cs key
  · intro c
    rw [truediv, Except.ok.injEq, Option.map_eq_some']
    constructor
    · rintro ⟨cw, hcw, hfst⟩
      obtain ⟨c', w⟩ := cw
      obtain ⟨hm, hname⟩ := (childrenByName_eq_some cs key (c', w) h).mp hcw
      cases hfst
      exact ⟨w, hm, hname⟩
    · rintro ⟨w, hm, hname⟩
      exact ⟨(c, w), (childrenByName_eq_some cs key (c, w) h).mpr ⟨hm, hname⟩, rfl⟩
  · rw [truediv, Except.ok.injEq, Option.map_eq_none']
    exact childrenByName_eq_none cs key

/-- Witness for C5 at the spec's example tree: looking up `"AAA"` at the
root returns `(Equity("AAA"), 0.5)`, and looking up `"ZZZ"` returns
`None`. -/
theorem claim_C5_lookup_witness :
    getItem
        (.portfolio "Root" [(.equity "AAA", 1/2), (.portfolio "Sub" [(.equity "BBB", 1)], 1/2)])
        "AAA" = .ok (some (.equity "AAA", 1/2)) ∧
    getItem
        (.portfolio "Root" [(.equity "AAA", 1/2), (.portfolio "Sub" [(.equity "BBB", 1)], 1/2)])
        "ZZZ" = .ok none := by
  constructor
  · exact ((claim_C5_lookup "Root" _ (by decide) "AAA" "X").1 (.equity "AAA") (1/2)).mpr
      ⟨List.Mem.head _, rfl⟩
  · refine ((claim_C5_lookup "Root" _ (by decide) "ZZZ" "X").2.1).mpr ?_
    intro cw hm
    rcases List.mem_cons.mp hm with h1 | h1
    · rw [h1]; decide
    · rcases List.mem_cons.mp h1 with h2 | h2
      · rw [h2]; decide
      · cases h2

theorem dGet_cons_self (k : String) (v : DVal) (fs : List (String × DVal)) :
    dGet ((k, v) :: fs) k = .ok v := by
  unfold dGet
  rw [List.find?_cons_of_pos _ (by simp)]

theorem dGet_cons_ne (k k' : String) (v : DVal) (fs : List (String × DVal))
    (h : k ≠ k') : dGet ((k, v) :: fs) k' = dGet fs k' := by
  unfold dGet
  rw [List.find?_cons_of_neg _ (by simp [h])]

/-- Structural induction for `Node` trees: to prove `P` for every node it
suffices to prove it for equities and, assuming it for every child, for
portfolios. -/
theorem Node.ind (P : Node → Prop) (he : ∀ t, P (Node.equity t))
    (hp : ∀ n cs, (∀ c w, (c, w) ∈ cs → P c) → P (Node.portfolio n cs)) :
    ∀ x, P x
  | .equity t => he t
  | .portfolio n cs => hp n cs (fun c w hm => Node.ind P he hp c)
termination_by x => sizeOf x
decreasing_by
  have h1 := List.sizeOf_lt_of_mem hm
  simp at h1 ⊢
  omega

theorem parseWeights_vnum (cs : List (Node × ℚ)) :
    parseWeights (cs.map (fun cw => (cw.1, DVal.vnum cw.2))) = .ok cs := by
  induction cs with
  | nil => rfl
  | cons hd tl ih =>
    obtain ⟨c, q⟩ := hd
    simp only [List.map_cons, parseWeights, decimalOf, ih]

theorem decodePairs_toDictChildren (cs : List (Node × ℚ))
    (h : ∀ c w, (c, w) ∈ cs → nodeFromDict (toDict c) = .ok c) :
    decodePairs (toDictChildren cs) = .ok (cs.map (fun cw => (cw.1, DVal.vnum cw.2))) := by
  induction cs with
  | nil => simp [toDictChildren, decodePairs]
  | cons hd tl ih =>
    obtain ⟨c, q⟩ := hd
    simp only [toDictChildren, decodePairs, List.map_cons]
    rw [h c q (List.Mem.head _),
      ih (fun c' w' hm => h c' w' (List.mem_cons_of_mem _ hm))]

theorem nodeFromDict_toDict (T : Node) (h : validB T = true) :
    nodeFromDict (toDict T) = .ok T := by
  induction T using Node.ind with
  | he t =>
    rw [toDict, nodeFromDict, dGet_cons_self]
    rfl
  | hp n cs ih =>
    obtain ⟨hsum, hnodup, hvc⟩ := validB_portfolio n cs h
    rw [toDict, nodeFromDict, dGet_cons_self]
    show portfolioFromDict [("type", DVal.vstr "PORTFOLIO"), ("name", DVal.vstr n),
        ("children", DVal.vpairs (toDictChildren cs))] = Except.ok (Node.portfolio n cs)
    unfold portfolioFromDict
    show (match decodePairs (toDictChildren cs) with
      | .error e => .error e
      | .ok cs' => mkPortfolioRaw n cs') = Except.ok (Node.portfolio n cs)
    rw [decodePairs_toDictChildren cs
      (fun c w hm => ih c w hm (validChildren_mem cs hvc c w hm))]
    show mkPortfolioRaw n (cs.map fun cw => (cw.1, DVal.vnum cw.2)) =
      Except.ok (Node.portfolio n cs)
    unfold mkPortfolioRaw
    rw [parseWeights_vnum]
    exact mkPortfolio_ok n cs hsum hnodup

/-- Claim C1: for every validly constructed tree, decoding the textual
encoding yields a structurally equal tree — `from_json (to_json T)`
succeeds and returns exactly `T`, every weight included (weights travel
as exact numeral strings, so no value drifts). -/
theorem claim_C1_roundtrip (T : Node) (h : validB T = true) :
    from_json (to_json T) = .ok T :=
  nodeFromDict_toDict T h

/-- Witness for C1 on a concrete two-level tree with fractional weights. -/
theorem claim_C1_roundtrip_witness :
    from_json (to_json (Node.portfolio "Root"
      [(.equity "AAA", 1/2), (.portfolio "Sub" [(.equity "BBB", 1)], 1/2)])) =
    .ok (Node.portfolio "Root"
      [(.equity "AAA", 1/2), (.portfolio "Sub" [(.equity "BBB", 1)], 1/2)]) :=
  claim_C1_roundtrip _ (by
    norm_num [validB, validChildren, sumw, childNames, Node.name]
    decide)

/-- Claim C8: a document with no `type` field is rejected with a missing
discriminant error (`KeyError('type')`, in the spec's `InvalidNodeType`
class), a document with `type = "BOND"` is rejected with
`ValueError("Invalid node type.")` (also `InvalidNodeType`), and a
`PORTFOLIO` document without a `children` field is rejected with
`KeyError('children')` (the spec's `MalformedStructure` class). -/
theorem claim_C8_decode_rejection :
    nodeFromDict (.vdict [("name", .vstr "P")]) = .error (.keyError "type") ∧
    isInvalidNodeTypeErr (.keyError "type") = true ∧
    nodeFromDict (.vdict [("type", .vstr "BOND")]) = .error .invalidNodeType ∧
    isInvalidNodeTypeErr .invalidNodeType = true ∧
    nodeFromDict (.vdict [("type", .vstr "PORTFOLIO"), ("name", .vstr "P")]) =
      .error (.keyError "children") ∧
    isMalformedStructureErr (.keyError "children") = true := by
  refine ⟨?_, rfl, ?_, rfl, ?_, rfl⟩
  · rw [nodeFromDict]
    rfl
  · rw [nodeFromDict, dGet_cons_self]
    rfl
  · rw [nodeFromDict, dGet_cons_self]
    show portfolioFromDict [("type", DVal.vstr "PORTFOLIO"), ("name", DVal.vstr "P")] =
      .error (.keyError "children")
    unfold portfolioFromDict
    rfl

/-- Claim C6 (code bug exhibit): equality of nodes is **not** structural.
Two separately constructed `Equity("AAA")` objects have equal tickers yet
compare unequal under `==` and have independent (here unequal) default
hashes, because `Equity` defines neither `__eq__` nor `__hash__`; and two
separately constructed, structurally identical portfolios also compare
unequal, because `Portfolio` defines `__hash__` but not `__eq__`. -/
theorem claim_C6_identity_equality :
    (ONode.equity 1 "AAA").oticker = (ONode.equity 2 "AAA").oticker ∧
    pyEq (.equity 1 "AAA") (.equity 2 "AAA") = false ∧
    pyHashEquity (.equity 1 "AAA") ≠ pyHashEquity (.equity 2 "AAA") ∧
    pyEq (.portfolio 3 "P" [(.equity 1 "AAA", 1)])
      (.portfolio 4 "P" [(.equity 1 "AAA", 1)]) = false := by
  refine ⟨rfl, rfl, by decide, rfl⟩

/-- Claim C7 (code bug exhibit): on a validly constructed tree in which
the ticker `"AAA"` is reachable through two different paths (as two
separately constructed `Equity("AAA")` objects), `all_equities` returns a
two-element set whose members both carry ticker `"AAA"` — the duplicate
is **not** collapsed, because `Equity` membership in a `set` is decided
by object identity (no `__eq__`/`__hash__`). -/
theorem claim_C7_duplicate_leaves :
    ovalidB (ONode.portfolio 4 "Root"
      [(.equity 1 "AAA", 1/2), (.portfolio 3 "Sub" [(.equity 2 "AAA", 1)], 1/2)]) = true ∧
    all_equities (ONode.portfolio 4 "Root"
      [(.equity 1 "AAA", 1/2), (.portfolio 3 "Sub" [(.equity 2 "AAA", 1)], 1/2)]) =
      [.equity 1 "AAA", .equity 2 "AAA"] ∧
    (all_equities (ONode.portfolio 4 "Root"
      [(.equity 1 "AAA", 1/2), (.portfolio 3 "Sub" [(.equity 2 "AAA", 1)], 1/2)])).map
        ONode.oticker = [some "AAA", some "AAA"] := by
  refine ⟨?_, ?_, ?_⟩
  · norm_num [ovalidB, ovalidChildren, osumw, ochildNames, ONode.oname]
    decide
  · simp [all_equities, allEquitiesChildren, setUnion, setAdd, pyEq, ONode.oid]
  · simp [all_equities, allEquitiesChildren, setUnion, setAdd, pyEq, ONode.oid,
      ONode.oticker]

/-- Claim C9 (code bug exhibit): `Portfolio.pretty` never renders the
portfolio's actual name.  On `Portfolio(name='Root', ...)` the second
output line is literally `  name='{self.name}',` (the source concatenates
a plain, non-f string after the f-string that produces the indentation),
while `Equity.pretty` does interpolate its ticker correctly. -/
theorem claim_C9_pretty_literal_name :
    pretty (.portfolio "Root" [(.equity "AAA", 1)]) 0 =
      "Portfolio(\n  name=\x27\x7bself.name\x7d\x27,\n  children=\x7b\n    Equity(ticker=\x27AAA\x27): 1\n  \x7d)" ∧
    pretty (.equity "VTI") 1 = "  Equity(ticker=\x27VTI\x27)" := by
  constructor
  · rw [pretty]
    show _ = _
    rw [prettyChildren, pretty, prettyChildren]
    rfl
  · rw [pretty]
    rfl

theorem takeWhile_all_ne (a : List Char) (h : ∀ c ∈ a, (c != '/') = true) :
    a.takeWhile (fun c => c != '/') = a := by
  induction a with
  | nil => rfl
  | cons hd tl ih =>
    rw [List.takeWhile_cons, h hd (List.mem_cons_self hd tl)]
    rw [ih (fun c hc => h c (List.mem_cons_of_mem hd hc))]
    rfl

theorem takeWhile_append_slash (a b : List Char) (h : ∀ c ∈ a, (c != '/') = true) :
    (a ++ '/' :: b).takeWhile (fun c => c != '/') = a := by
  induction a with
  | nil => simp [List.takeWhile_cons]
  | cons hd tl ih =>
    rw [List.cons_append, List.takeWhile_cons, h hd (List.mem_cons_self hd tl)]
    rw [ih (fun c hc => h c (List.mem_cons_of_mem hd hc))]
    rfl

theorem append_slash_data (a x : String) :
    (a ++ "/" ++ x).data = a.data ++ '/' :: x.data := by
  rw [String.data_append, String.data_append]
  rw [List.append_assoc]
  rfl

theorem noSlash_chars (a : String) (h : noSlash a = true) :
    ∀ c ∈ a.data, (c != '/') = true := by
  intro c hc
  rw [noSlash, List.all_eq_true] at h
  exact h c hc

theorem prefix_slash_inj (n : String) : Function.Injective (fun x => n ++ "/" ++ x) := by
  intro x x' h
  have hd : n.data ++ '/' :: x.data = n.data ++ '/' :: x'.data := by
    rw [← append_slash_data, ← append_slash_data]
    exact congrArg String.data h
  have h2 := List.append_cancel_left hd
  injection h2 with _ h3
  exact String.ext h3

theorem slash_append_inj (a a' x x' : String)
    (ha : noSlash a = true) (ha' : noSlash a' = true)
    (h : a ++ "/" ++ x = a' ++ "/" ++ x') : a = a' ∧ x = x' := by
  have hd : a.data ++ '/' :: x.data = a'.data ++ '/' :: x'.data := by
    rw [← append_slash_data, ← append_slash_data]
    exact congrArg String.data h
  have heq : a.data = a'.data := by
    have t1 := takeWhile_append_slash a.data x.data (noSlash_chars a ha)
    have t2 := takeWhile_append_slash a'.data x'.data (noSlash_chars a' ha')
    rw [← t1, ← t2, hd]
  refine ⟨String.ext heq, ?_⟩
  rw [heq] at hd
  have h2 := List.append_cancel_left hd
  injection h2 with _ h3
  exact String.ext h3

theorem slashFree_portfolio (n : String) (cs : List (Node × ℚ))
    (h : slashFree (.portfolio n cs) = true) :
    noSlash n = true ∧ slashFreeChildren cs = true := by
  rw [slashFree, Bool.and_eq_true] at h
  exact h

theorem slashFreeChildren_mem (cs : List (Node × ℚ)) (h : slashFreeChildren cs = true)
    (c : Node) (w : ℚ) (hm : (c, w) ∈ cs) : slashFree c = true := by
  induction cs with
  | nil => cases hm
  | cons hd tl ih =>
    obtain ⟨c', w'⟩ := hd
    rw [slashFreeChildren, Bool.and_eq_true] at h
    rcases List.mem_cons.mp hm with h1 | h1
    · rw [Prod.mk.injEq] at h1
      rw [h1.1]
      exact h.1
    · exact ih h.2 h1

theorem slashFree_name (c : Node) (h : slashFree c = true) : noSlash c.name = true := by
  cases c with
  | equity t =>
    rw [slashFree] at h
    exact h
  | portfolio n cs =>
    rw [Node.name]
    exact (slashFree_portfolio n cs h).1

theorem flattenSpecChildren_cons (n : String) (c : Node) (q : ℚ)
    (rest : List (Node × ℚ)) :
    flattenSpecChildren n ((c, q) :: rest) =
      specEntries n c q ++ flattenSpecChildren n rest := by
  cases c <;> simp [flattenSpecChildren, specEntries]

theorem specEntries_key_shape (n : String) (c : Node) (q : ℚ)
    (hsf : slashFree c = true)
    (hshape : ∀ k ∈ (flattenSpec c).map Prod.fst, ∃ x : String, k = c.name ++ "/" ++ x) :
    ∀ k ∈ (specEntries n c q).map Prod.fst,
      ∃ x : String, k = n ++ "/" ++ x ∧
        x.data.takeWhile (fun ch => ch != '/') = c.name.data := by
  intro k hk
  cases c with
  | equity t =>
    simp only [specEntries, List.map_cons, List.map_nil, List.mem_singleton] at hk
    subst hk
    refine ⟨t, rfl, ?_⟩
    rw [Node.name]
    exact takeWhile_all_ne t.data (noSlash_chars t (by rw [slashFree] at hsf; exact hsf))
  | portfolio pn pcs =>
    simp only [specEntries, List.map_map, List.mem_map] at hk
    obtain ⟨pw, hpw, hkeq⟩ := hk
    simp only [Function.comp] at hkeq
    obtain ⟨x', hx'⟩ := hshape pw.1 (List.mem_map_of_mem Prod.fst hpw)
    refine ⟨pw.1, hkeq.symm, ?_⟩
    rw [hx', append_slash_data]
    exact takeWhile_append_slash _ _
      (noSlash_chars _ (slashFree_name (.portfolio pn pcs) hsf))

theorem flattenSpecChildren_key_mem (n : String) (cs : List (Node × ℚ)) (k : String)
    (hk : k ∈ (flattenSpecChildren n cs).map Prod.fst) :
    ∃ c w, (c, w) ∈ cs ∧ k ∈ (specEntries n c w).map Prod.fst := by
  induction cs with
  | nil => simp [flattenSpecChildren] at hk
  | cons hd tl ih =>
    obtain ⟨c, q⟩ := hd
    rw [flattenSpecChildren_cons, List.map_append, List.mem_append] at hk
    rcases hk with hk | hk
    · exact ⟨c, q, List.Mem.head _, hk⟩
    · obtain ⟨c', w', hm, hk'⟩ := ih hk
      exact ⟨c', w', List.mem_cons_of_mem _ hm, hk'⟩

theorem specEntries_keys_nodup (n : String) (c : Node) (q : ℚ)
    (hnd : ((flattenSpec c).map Prod.fst).Nodup) :
    ((specEntries n c q).map Prod.fst).Nodup := by
  cases c with
  | equity t => simp [specEntries]
  | portfolio pn pcs =>
    simp only [specEntries, List.map_map]
    have hfun : (Prod.fst ∘ fun pw : String × ℚ => (n ++ "/" ++ pw.1, q * pw.2)) =
        (fun s => n ++ "/" ++ s) ∘ Prod.fst := rfl
    rw [hfun, ← List.map_map]
    exact hnd.map (prefix_slash_inj n)

theorem flattenSpecChildren_keys_nodup (n : String) (cs : List (Node × ℚ))
    (hnames : (childNames cs).Nodup)
    (hprops : ∀ c w, (c, w) ∈ cs → slashFree c = true ∧
      ((flattenSpec c).map Prod.fst).Nodup ∧
      (∀ k ∈ (flattenSpec c).map Prod.fst, ∃ x : String, k = c.name ++ "/" ++ x)) :
    ((flattenSpecChildren n cs).map Prod.fst).Nodup := by
  induction cs with
  | nil => simp [flattenSpecChildren]
  | cons hd tl ih =>
    obtain ⟨c, q⟩ := hd
    rw [childNames, List.map_cons, List.nodup_cons] at hnames
    rw [flattenSpecChildren_cons, List.map_append, List.nodup_append]
    obtain ⟨hsf, hnd, hshape⟩ := hprops c q (List.Mem.head _)
    refine ⟨specEntries_keys_nodup n c q hnd,
      ih hnames.2 (fun c' w' hm => hprops c' w' (List.mem_cons_of_mem _ hm)), ?_⟩
    intro k hk1 hk2
    obtain ⟨x, hx, hseg⟩ := specEntries_key_shape n c q hsf hshape k hk1
    obtain ⟨c', w', hm', hk'⟩ := flattenSpecChildren_key_mem n tl k hk2
    obtain ⟨hsf', hnd', hshape'⟩ := hprops c' w' (List.mem_cons_of_mem _ hm')
    obtain ⟨x', hx', hseg'⟩ := specEntries_key_shape n c' w' hsf' hshape' k hk'
    have hxx : x = x' := prefix_slash_inj n (hx.symm.trans hx')
    have hcc : c.name = c'.name := String.ext (by rw [← hseg, hxx, hseg'])
    exact hnames.1 (hcc ▸ List.mem_map_of_mem (fun cw : Node × ℚ => cw.1.name) hm')

theorem flattenSpecChildren_key_shape (n : String) (cs : List (Node × ℚ))
    (hprops : ∀ c w, (c, w) ∈ cs → slashFree c = true ∧
      ((flattenSpec c).map Prod.fst).Nodup ∧
      (∀ k ∈ (flattenSpec c).map Prod.fst, ∃ x : String, k = c.name ++ "/" ++ x)) :
    ∀ k ∈ (flattenSpecChildren n cs).map Prod.fst, ∃ x : String, k = n ++ "/" ++ x := by
  intro k hk
  obtain ⟨c, w, hm, hk'⟩ := flattenSpecChildren_key_mem n cs k hk
  obtain ⟨hsf, _, hshape⟩ := hprops c w hm
  obtain ⟨x, hx, _⟩ := specEntries_key_shape n c w hsf hshape k hk'
  exact ⟨x, hx⟩

theorem dictInsert_fresh (acc : List (String × ℚ)) (k : String) (v : ℚ)
    (h : k ∉ acc.map Prod.fst) : dictInsert acc k v = acc ++ [(k, v)] := by
  rw [dictInsert, if_neg]
  intro hany
  rw [List.any_eq_true] at hany
  obtain ⟨kv, hkv, hbeq⟩ := hany
  rw [beq_iff_eq] at hbeq
  exact h (hbeq ▸ List.mem_map_of_mem Prod.fst hkv)

theorem foldl_dictInsert_fresh (l : List (String × ℚ)) :
    ∀ acc : List (String × ℚ), (l.map Prod.fst).Nodup →
      (∀ k ∈ l.map Prod.fst, k ∉ acc.map Prod.fst) →
      l.foldl (fun a kv => dictInsert a kv.1 kv.2) acc = acc ++ l := by
  induction l with
  | nil => intro acc _ _; simp
  | cons hd tl ih =>
    intro acc hnd hfresh
    obtain ⟨k, v⟩ := hd
    rw [List.map_cons, List.nodup_cons] at hnd
    rw [List.foldl_cons]
    have h1 : dictInsert acc k v = acc ++ [(k, v)] :=
      dictInsert_fresh acc k v (hfresh k (List.Mem.head _))
    rw [h1, ih (acc ++ [(k, v)]) hnd.2 ?_, List.append_assoc]
    · rfl
    · intro k' hk' hk'acc
      rw [List.map_append, List.mem_append] at hk'acc
      rcases hk'acc with h2 | h2
      · exact hfresh k' (List.mem_cons_of_mem _ hk') h2
      · simp only [List.map_cons, List.map_nil, List.mem_singleton] at h2
        exact hnd.1 (h2 ▸ hk')

theorem dictInsertList_fresh (l : List (String × ℚ))
    (hnd : (l.map Prod.fst).Nodup) : dictInsertList [] l = l := by
  rw [dictInsertList, foldl_dictInsert_fresh l [] hnd (by simp), List.nil_append]

theorem insertScaled_eq (n : String) (q : ℚ) (l : List (String × ℚ)) :
    ∀ acc, insertScaled n q l acc =
      dictInsertList acc (l.map (fun pw => (n ++ "/" ++ pw.1, q * pw.2))) := by
  induction l with
  | nil => intro acc; rfl
  | cons hd tl ih =>
    intro acc
    obtain ⟨p, w⟩ := hd
    simp only [insertScaled, List.map_cons, dictInsertList, List.foldl_cons]
    exact ih (dictInsert acc (n ++ "/" ++ p) (q * w))

theorem flattenChildren_eq (n : String) (cs : List (Node × ℚ))
    (hflat : ∀ c w, (c, w) ∈ cs → flatten c = flattenSpec c) :
    ∀ acc, flattenChildren n cs acc = dictInsertList acc (flattenSpecChildren n cs) := by
  induction cs with
  | nil =>
    intro acc
    simp [flattenChildren, flattenSpecChildren, dictInsertList]
  | cons hd tl ih =>
    intro acc
    obtain ⟨c, q⟩ := hd
    have ihtl := ih (fun c' w' hm => hflat c' w' (List.mem_cons_of_mem _ hm))
    rw [flattenSpecChildren_cons]
    cases c with
    | equity t =>
      rw [flattenChildren]
      rw [ihtl (dictInsert acc (n ++ "/" ++ t) q)]
      simp only [specEntries, dictInsertList, List.foldl_append, List.foldl_cons,
        List.foldl_nil]
    | portfolio pn pcs =>
      rw [flattenChildren]
      rw [ihtl (insertScaled n q (flatten (.portfolio pn pcs)) acc)]
      rw [hflat (.portfolio pn pcs) q (List.Mem.head _)]
      rw [insertScaled_eq]
      simp only [specEntries, dictInsertList, List.foldl_append]

theorem flatten_struct (T : Node) : validB T = true → slashFree T = true →
    flatten T = flattenSpec T ∧
    ((flattenSpec T).map Prod.fst).Nodup ∧
    (∀ k ∈ (flattenSpec T).map Prod.fst, ∃ x : String, k = T.name ++ "/" ++ x) := by
  induction T using Node.ind with
  | he t =>
    intro _ _
    refine ⟨?_, ?_, ?_⟩ <;> simp [flatten, flattenSpec]
  | hp n cs ih =>
    intro hv hs
    obtain ⟨hsum, hnames, hvc⟩ := validB_portfolio n cs hv
    have hsfc : ∀ c w, (c, w) ∈ cs → slashFree c = true :=
      slashFreeChildren_mem cs (slashFree_portfolio n cs hs).2
    have hprops : ∀ c w, (c, w) ∈ cs → slashFree c = true ∧
        ((flattenSpec c).map Prod.fst).Nodup ∧
        (∀ k ∈ (flattenSpec c).map Prod.fst, ∃ x : String, k = c.name ++ "/" ++ x) := by
      intro c w hm
      obtain ⟨_, hnd, hsh⟩ := ih c w hm (validChildren_mem cs hvc c w hm) (hsfc c w hm)
      exact ⟨hsfc c w hm, hnd, hsh⟩
    have hflat : ∀ c w, (c, w) ∈ cs → flatten c = flattenSpec c := by
      intro c w hm
      exact (ih c w hm (validChildren_mem cs hvc c w hm) (hsfc c w hm)).1
    have hnd := flattenSpecChildren_keys_nodup n cs hnames hprops
    refine ⟨?_, ?_, ?_⟩
    · rw [flatten, flattenChildren_eq n cs hflat [], flattenSpec]
      exact dictInsertList_fresh _ hnd
    · rw [flattenSpec]
      exact hnd
    · rw [flattenSpec, Node.name]
      exact flattenSpecChildren_key_shape n cs hprops

theorem flattenSpecChildren_sum (n : String) (cs : List (Node × ℚ))
    (hsub : ∀ c w, (c, w) ∈ cs → ∀ pn pcs, c = Node.portfolio pn pcs →
      ((flattenSpec c).map Prod.snd).sum = 1) :
    ((flattenSpecChildren n cs).map Prod.snd).sum = sumw cs := by
  induction cs with
  | nil => simp [flattenSpecChildren, sumw]
  | cons hd tl ih =>
    obtain ⟨c, q⟩ := hd
    rw [flattenSpecChildren_cons, List.map_append, List.sum_append]
    rw [ih (fun c' w' hm => hsub c' w' (List.mem_cons_of_mem _ hm))]
    have hexp : sumw ((c, q) :: tl) = q + sumw tl := by
      simp [sumw]
    rw [hexp]
    have hhead : ((specEntries n c q).map Prod.snd).sum = q := by
      cases c with
      | equity t => simp [specEntries]
      | portfolio pn pcs =>
        simp only [specEntries, List.map_map]
        have hfun : (Prod.snd ∘ fun pw : String × ℚ => (n ++ "/" ++ pw.1, q * pw.2)) =
            (fun pw : String × ℚ => q * pw.2) := rfl
        rw [hfun]
        have hmul : ((flattenSpec (Node.portfolio pn pcs)).map
            (fun pw : String × ℚ => q * pw.2)).sum =
            q * ((flattenSpec (Node.portfolio pn pcs)).map Prod.snd).sum :=
          List.sum_map_mul_left _ _ _
        rw [hmul, hsub (.portfolio pn pcs) q (List.Mem.head _) pn pcs rfl, mul_one]
    rw [hhead]

theorem flattenSpec_sum (T : Node) : validB T = true →
    ∀ n cs, T = Node.portfolio n cs → ((flattenSpec T).map Prod.snd).sum = 1 := by
  induction T using Node.ind with
  | he t =>
    intro _ n cs h
    cases h
  | hp n cs ih =>
    intro hv _ _ _
    obtain ⟨hsum, _, hvc⟩ := validB_portfolio n cs hv
    rw [flattenSpec]
    rw [flattenSpecChildren_sum n cs
      (fun c w hm pn pcs hc => ih c w hm (validChildren_mem cs hvc c w hm) pn pcs hc)]
    exact hsum

/-- Claim C4 (amended: restricted to trees none of whose names or tickers
contain `/`, the collision-free case — see the counterexample for why the
restriction is needed): `flatten` emits exactly the entries the claim
describes (`flattenSpec`), its values sum to exactly 1 when computed from
a portfolio root, and on the spec's concrete tree the result is exactly
`{"Root/AAA": 0.5, "Root/Sub/BBB": 0.5}`. -/
theorem claim_C4_amended (T : Node) (hv : validB T = true) (hs : slashFree T = true) :
    flatten T = flattenSpec T ∧
    (∀ n cs, T = Node.portfolio n cs → ((flatten T).map Prod.snd).sum = 1) ∧
    flatten (Node.portfolio "Root"
      [(.equity "AAA", 1/2), (.portfolio "Sub" [(.equity "BBB", 1)], 1/2)]) =
      [("Root/AAA", 1/2), ("Root/Sub/BBB", 1/2)] := by
  obtain ⟨heq, _, _⟩ := flatten_struct T hv hs
  refine ⟨heq, ?_, ?_⟩
  · intro n cs hT
    rw [heq]
    exact flattenSpec_sum T hv n cs hT
  · simp only [flatten, flattenChildren, insertScaled, dictInsert]
    have e1 : "Root" ++ "/" ++ "AAA" = "Root/AAA" := rfl
    have e2 : "Root" ++ "/" ++ ("Sub" ++ "/" ++ "BBB") = "Root/Sub/BBB" := rfl
    rw [e1, e2]
    norm_num
    decide

/-- Witness for the amended C4: at the spec's concrete tree the flattened
values sum to exactly 1. -/
theorem claim_C4_amended_witness :
    ((flatten (Node.portfolio "Root"
      [(.equity "AAA", 1/2), (.portfolio "Sub" [(.equity "BBB", 1)], 1/2)])).map
        Prod.snd).sum = 1 :=
  (claim_C4_amended
    (Node.portfolio "Root"
      [(.equity "AAA", 1/2), (.portfolio "Sub" [(.equity "BBB", 1)], 1/2)])
    (by norm_num [validB, validChildren, sumw, childNames, Node.name]; decide)
    (by simp [slashFree, slashFreeChildren, noSlash])).2.1 "Root" _ rfl

/-- Counterexample to C4 as stated: the validly constructed tree
`Portfolio("Root", {Equity("A/B"): 0.5, Portfolio("A", {Equity("B"): 1}): 0.5})`
makes both children produce the same path `Root/A/B`; the second entry
overwrites the first in the result dict, so the values sum to 1/2, not 1
(the `/` inside the ticker is the spec's own documented no-escaping
limitation). -/
theorem claim_C4_counterexample :
    validB (Node.portfolio "Root"
      [(.equity "A/B", 1/2), (.portfolio "A" [(.equity "B", 1)], 1/2)]) = true ∧
    flatten (Node.portfolio "Root"
      [(.equity "A/B", 1/2), (.portfolio "A" [(.equity "B", 1)], 1/2)]) =
      [("Root/A/B", 1/2)] ∧
    ((flatten (Node.portfolio "Root"
      [(.equity "A/B", 1/2), (.portfolio "A" [(.equity "B", 1)], 1/2)])).map
        Prod.snd).sum ≠ 1 := by
  refine ⟨?_, ?_, ?_⟩
  · norm_num [validB, validChildren, sumw, childNames, Node.name]
    decide
  · simp only [flatten, flattenChildren, insertScaled, dictInsert]
    have e1 : "Root" ++ "/" ++ "A/B" = "Root/A/B" := rfl
    have e2 : "Root" ++ "/" ++ ("A" ++ "/" ++ "B") = "Root/A/B" := rfl
    rw [e1, e2]
    norm_num
  · simp only [flatten, flattenChildren, insertScaled, dictInsert]
    have e1 : "Root" ++ "/" ++ "A/B" = "Root/A/B" := rfl
    have e2 : "Root" ++ "/" ++ ("A" ++ "/" ++ "B") = "Root/A/B" := rfl
    rw [e1, e2]
    norm_num
